import Mathlib

/-!
Shallow embedding of the keyword-sanitizer core of the image-metadata
repository (source: `src/unnamed/part_000`, component `MetadataGenerator`).

The embedded pieces are:
* `validateAndCleanKeywords` (source lines 30-89): normalization by
  `trim().toLowerCase()`, the short-token guard, exact-duplicate set,
  stem-group conflict table and first-match lookup, the 25-entry cutoff
  and the final `slice(0, 25)`.
* the `topTenKeywords` fallback of `generateSingleMetadata`
  (source lines 228-234).

JavaScript strings are modelled as Lean `String`; `trim` and
`toLowerCase` are modelled character-faithfully for the ASCII range
(`Char.isWhitespace`, `Char.toLower`), and `.length` as the UTF-16
code-unit count `jsLength`.  Runtime values that may violate the
TypeScript annotation (the function guards `!keywords ||
!Array.isArray(keywords)` itself) are modelled by the inductive `JSVal`,
and the fact that `k.trim()` throws a `TypeError` on a non-string entry
by the `Except` result of `validateAndCleanKeywordsJS`.
-/

/-- Model of JavaScript `String.prototype.toLowerCase` (ASCII-faithful):
lower-case every character of the string. -/
def jsToLower (s : String) : String :=
  ⟨s.data.map Char.toLower⟩

/-- Model of JavaScript `String.prototype.trim` (ASCII-faithful): drop
leading and trailing whitespace characters. -/
def jsTrim (s : String) : String :=
  ⟨((s.data.dropWhile Char.isWhitespace).reverse.dropWhile Char.isWhitespace).reverse⟩

/-- The per-candidate normalization `k.trim().toLowerCase()` from source
line 34. -/
def normalizeKeyword (s : String) : String :=
  jsToLower (jsTrim s)

/-- JavaScript `String.prototype.length`: the number of UTF-16 code
units (characters above U+FFFF count twice). -/
def jsLength (s : String) : Nat :=
  (s.data.map (fun c => if c.toNat < 65536 then 1 else 2)).sum

/-- The static `variations` table (source lines 39-55), in the object's
insertion order, which is the iteration order of `Object.entries`. -/
def variations : List (String × List String) :=
  [ ("work", ["work", "working", "worker", "workplace", "workstation"]),
    ("business", ["business", "corporate", "professional", "commercial", "enterprise"]),
    ("happy", ["happy", "joyful", "cheerful", "delighted", "pleased"]),
    ("success", ["success", "successful", "achievement", "accomplishment"]),
    ("team", ["team", "teamwork", "collaboration", "cooperative"]),
    ("technology", ["technology", "technological", "tech", "digital"]),
    ("people", ["people", "person", "individuals", "humans"]),
    ("hand", ["hand", "hands", "finger", "fingers"]),
    ("office", ["office", "workspace", "workplace"]),
    ("meeting", ["meeting", "conference", "discussion"]),
    ("computer", ["computer", "laptop", "desktop", "pc"]),
    ("finance", ["finance", "financial", "money", "economic"]),
    ("data", ["data", "information", "analytics", "statistics"]),
    ("growth", ["growth", "growing", "development", "progress"]),
    ("modern", ["modern", "contemporary", "current", "new"]) ]

/-- The inner `for (const [stem, variants] of Object.entries(variations))`
loop of source lines 67-76: the stem of the first group whose variant
list contains the keyword, or `none` when no group contains it. -/
def findStem (k : String) : Option String :=
  (variations.find? (fun p => p.2.contains k)).map (fun p => p.1)

/-- The main `for (const keyword of processed)` loop of source lines
59-86, with the working state made explicit: `unique` is the set of
already emitted keywords, `stems` the set of claimed stem names,
`cleaned` the output accumulator.  The `break` at 25 entries returns the
accumulator immediately. -/
def cleanLoop : List String → List String → List String → List String → List String
  | [], _, _, cleaned => cleaned
  | keyword :: rest, unique, stems, cleaned =>
    if keyword = "" ∨ jsLength keyword < 2 then
      cleanLoop rest unique stems cleaned
    else if keyword ∈ unique then
      cleanLoop rest unique stems cleaned
    else
      match findStem keyword with
      | some stem =>
        if stem ∈ stems then
          cleanLoop rest unique stems cleaned
        else
          if 25 ≤ (cleaned ++ [keyword]).length then cleaned ++ [keyword]
          else cleanLoop rest (unique ++ [keyword]) (stems ++ [stem]) (cleaned ++ [keyword])
      | none =>
        if 25 ≤ (cleaned ++ [keyword]).length then cleaned ++ [keyword]
        else cleanLoop rest (unique ++ [keyword]) stems (cleaned ++ [keyword])

/-- The loop started from empty working sets followed by the defensive
`return cleanedKeywords.slice(0, 25)` of source line 88, acting on an
already normalized candidate list. -/
def runClean (processed : List String) : List String :=
  (cleanLoop processed [] [] []).take 25

/-- `validateAndCleanKeywords` (source lines 30-89) on a value that
satisfies its TypeScript annotation `string[]`: normalize every
candidate, then run the filtering loop. -/
def validateAndCleanKeywords (keywords : List String) : List String :=
  runClean (keywords.map normalizeKeyword)

/-- JSON-decodable JavaScript runtime values, as far as the guarded
entry points need them. -/
inductive JSVal where
  | str (s : String)
  | num (n : Int)
  | bool (b : Bool)
  | null
  | undef
  | arr (elems : List JSVal)

/-- `Array.isArray`. -/
def isArray : JSVal → Bool
  | .arr _ => true
  | _ => false

/-- The eager `keywords.map(k => k.trim().toLowerCase())` of source line
34 on runtime values: a non-string entry makes `k.trim` throw a
`TypeError`. -/
def mapTrimLower : List JSVal → Except String (List String)
  | [] => .ok []
  | .str s :: rest => (mapTrimLower rest).map (fun l => normalizeKeyword s :: l)
  | _ :: _ => .error "TypeError"

/-- `validateAndCleanKeywords` on an arbitrary runtime value: the guard
`if (!keywords || !Array.isArray(keywords)) return []` of source line 31
absorbs every non-array (arrays are always truthy in JavaScript, so the
two tests together accept exactly the arrays); on an array the
normalization map may throw. -/
def validateAndCleanKeywordsJS : JSVal → Except String (List String)
  | .arr l => (mapTrimLower l).map runClean
  | _ => .ok []

/-- The metadata record parsed out of the model response (source lines
12-19); `topTenKeywords` is optional because the parsed JSON may lack
the field. -/
structure MetadataResult where
  title : String
  description : String
  keywords : List String
  topTenKeywords : Option (List String)
  altText : String
  category : String

/-- The post-parse fixup of `generateSingleMetadata` (source lines
228-234): `result.keywords = validateAndCleanKeywords(result.keywords)`
followed by `if (!result.topTenKeywords ||
result.topTenKeywords.length !== 10) result.topTenKeywords =
result.keywords.slice(0, 10)`. -/
def finalizeResult (r : MetadataResult) : MetadataResult :=
  let r1 := { r with keywords := validateAndCleanKeywords r.keywords }
  match r1.topTenKeywords with
  | some t =>
    if t.length ≠ 10 then { r1 with topTenKeywords := some (r1.keywords.take 10) } else r1
  | none => { r1 with topTenKeywords := some (r1.keywords.take 10) }

/-! ### Character-level facts about the ASCII `toLower` and whitespace -/

theorem charOfNat_toNat (n : Nat) (h : n < 55296) : (Char.ofNat n).toNat = n := by
  unfold Char.ofNat
  rw [dif_pos (Or.inl h : Nat.isValidChar n)]
  rfl

theorem toLower_of_upper (c : Char) (h : c.toNat ≥ 65 ∧ c.toNat ≤ 90) :
    (Char.toLower c).toNat = c.toNat + 32 := by
  unfold Char.toLower
  rw [if_pos h]
  exact charOfNat_toNat _ (by omega)

theorem toLower_of_not_upper (c : Char) (h : ¬(c.toNat ≥ 65 ∧ c.toNat ≤ 90)) :
    Char.toLower c = c := by
  unfold Char.toLower
  rw [if_neg h]

theorem toLower_toLower (c : Char) : (Char.toLower c).toLower = Char.toLower c := by
  by_cases h : c.toNat ≥ 65 ∧ c.toNat ≤ 90
  · have h1 := toLower_of_upper c h
    exact toLower_of_not_upper _ (by omega)
  · rw [toLower_of_not_upper c h]
    exact toLower_of_not_upper c h

theorem ws_toNat (c : Char) (h : c.isWhitespace = true) :
    c.toNat = 32 ∨ c.toNat = 9 ∨ c.toNat = 13 ∨ c.toNat = 10 := by
  simp [Char.isWhitespace] at h
  rcases h with ((h | h) | h) | h <;> subst h <;> decide

theorem not_ws_of_range (c : Char) (h1 : 65 ≤ c.toNat) (h2 : c.toNat ≤ 122) :
    c.isWhitespace = false := by
  by_contra hw
  have := ws_toNat c (by revert hw; cases c.isWhitespace <;> simp)
  omega

theorem isWhitespace_toLower (c : Char) :
    (Char.toLower c).isWhitespace = c.isWhitespace := by
  by_cases h : c.toNat ≥ 65 ∧ c.toNat ≤ 90
  · have h1 := toLower_of_upper c h
    rw [not_ws_of_range _ (by omega) (by omega), not_ws_of_range c (by omega) (by omega)]
  · rw [toLower_of_not_upper c h]

theorem ws_comp_toLower : Char.isWhitespace ∘ Char.toLower = Char.isWhitespace :=
  funext isWhitespace_toLower

/-! ### Idempotence of the `trim().toLowerCase()` normalization -/

theorem jsTrim_data (s : String) :
    (jsTrim s).data =
      (s.data.dropWhile Char.isWhitespace).rdropWhile Char.isWhitespace := by
  simp [jsTrim, List.rdropWhile]

theorem jsToLower_data (s : String) : (jsToLower s).data = s.data.map Char.toLower := rfl

theorem jsToLower_jsToLower (s : String) : jsToLower (jsToLower s) = jsToLower s := by
  apply String.ext
  simp [jsToLower_data, List.map_map, ws_comp_toLower]
  exact fun c _ => toLower_toLower c

theorem trimmed_dropWhile_fix (l : List Char) :
    ((l.dropWhile Char.isWhitespace).rdropWhile Char.isWhitespace).dropWhile Char.isWhitespace
    = (l.dropWhile Char.isWhitespace).rdropWhile Char.isWhitespace := by
  obtain ⟨t, ht⟩ := List.rdropWhile_prefix Char.isWhitespace (l.dropWhile Char.isWhitespace)
  cases hd : (l.dropWhile Char.isWhitespace).rdropWhile Char.isWhitespace with
  | nil => simp
  | cons a d' =>
    have h0 := List.head?_dropWhile_not Char.isWhitespace l
    rw [hd] at ht
    rw [← ht] at h0
    have ha : Char.isWhitespace a = false := by simpa using h0
    rw [List.dropWhile_cons_of_neg (by simp [ha])]

theorem jsTrim_jsTrim (s : String) : jsTrim (jsTrim s) = jsTrim s := by
  apply String.ext
  rw [jsTrim_data, jsTrim_data, trimmed_dropWhile_fix, List.rdropWhile_idempotent]

theorem rdropWhile_map_comm (f : Char → Char) (p : Char → Bool) (hpf : p ∘ f = p)
    (l : List Char) : (l.map f).rdropWhile p = (l.rdropWhile p).map f := by
  simp [List.rdropWhile, ← List.map_reverse, List.dropWhile_map, hpf]

theorem jsTrim_jsToLower (s : String) : jsTrim (jsToLower s) = jsToLower (jsTrim s) := by
  apply String.ext
  rw [jsTrim_data, jsToLower_data, jsToLower_data, jsTrim_data]
  rw [List.dropWhile_map, ws_comp_toLower, rdropWhile_map_comm Char.toLower _ ws_comp_toLower]

theorem normalizeKeyword_idem (s : String) :
    normalizeKeyword (normalizeKeyword s) = normalizeKeyword s := by
  unfold normalizeKeyword
  rw [jsTrim_jsToLower, jsTrim_jsTrim, jsToLower_jsToLower]

theorem jsToLower_normalizeKeyword (s : String) :
    jsToLower (normalizeKeyword s) = normalizeKeyword s := by
  unfold normalizeKeyword
  rw [jsToLower_jsToLower]

/-! ### One-step equations for the filtering loop -/

theorem cleanLoop_guard {k : String} (rest u st c : List String)
    (h : k = "" ∨ jsLength k < 2) :
    cleanLoop (k :: rest) u st c = cleanLoop rest u st c := by
  simp only [cleanLoop]
  rw [if_pos h]

theorem cleanLoop_dup {k : String} (rest u st c : List String)
    (h1 : ¬(k = "" ∨ jsLength k < 2)) (h2 : k ∈ u) :
    cleanLoop (k :: rest) u st c = cleanLoop rest u st c := by
  simp only [cleanLoop]
  rw [if_neg h1, if_pos h2]

theorem cleanLoop_conflict {k s : String} (rest u st c : List String)
    (h1 : ¬(k = "" ∨ jsLength k < 2)) (h2 : k ∉ u)
    (h3 : findStem k = some s) (h4 : s ∈ st) :
    cleanLoop (k :: rest) u st c = cleanLoop rest u st c := by
  simp only [cleanLoop, h3]
  rw [if_neg h1, if_neg h2, if_pos h4]

theorem cleanLoop_push_stem {k s : String} (rest u st c : List String)
    (h1 : ¬(k = "" ∨ jsLength k < 2)) (h2 : k ∉ u)
    (h3 : findStem k = some s) (h4 : s ∉ st) :
    cleanLoop (k :: rest) u st c =
      if 25 ≤ (c ++ [k]).length then c ++ [k]
      else cleanLoop rest (u ++ [k]) (st ++ [s]) (c ++ [k]) := by
  simp only [cleanLoop, h3]
  rw [if_neg h1, if_neg h2, if_neg h4]

theorem cleanLoop_push_none {k : String} (rest u st c : List String)
    (h1 : ¬(k = "" ∨ jsLength k < 2)) (h2 : k ∉ u)
    (h3 : findStem k = none) :
    cleanLoop (k :: rest) u st c =
      if 25 ≤ (c ++ [k]).length then c ++ [k]
      else cleanLoop rest (u ++ [k]) st (c ++ [k]) := by
  simp only [cleanLoop, h3]
  rw [if_neg h1, if_neg h2]

/-! ### The main loop invariant: no duplicates, guarded lengths, at most
one keyword attributed to each stem, and stability (sublist of the
normalized input) -/

theorem cleanLoop_invariant (rest : List String) : ∀ (u st c : List String),
    c.Nodup →
    (∀ k ∈ c, k ∈ u) →
    (∀ k ∈ c, k ≠ "" ∧ 2 ≤ jsLength k) →
    (∀ k ∈ c, ∀ s, findStem k = some s → s ∈ st) →
    (∀ s, c.countP (fun k => findStem k == some s) ≤ 1) →
    (cleanLoop rest u st c).Nodup ∧
    (∀ k ∈ cleanLoop rest u st c, k ≠ "" ∧ 2 ≤ jsLength k) ∧
    (∀ s, (cleanLoop rest u st c).countP (fun k => findStem k == some s) ≤ 1) ∧
    ∃ t, cleanLoop rest u st c = c ++ t ∧ t.Sublist rest := by
  induction rest with
  | nil =>
    intro u st c hnd hcu hgu hst hcnt
    exact ⟨hnd, hgu, hcnt, [], by simp [cleanLoop], List.nil_sublist _⟩
  | cons k rest ih =>
    intro u st c hnd hcu hgu hst hcnt
    by_cases hg : k = "" ∨ jsLength k < 2
    · rw [cleanLoop_guard rest u st c hg]
      obtain ⟨a, b, d, t, ht, hs⟩ := ih u st c hnd hcu hgu hst hcnt
      exact ⟨a, b, d, t, ht, hs.cons k⟩
    · by_cases hu : k ∈ u
      · rw [cleanLoop_dup rest u st c hg hu]
        obtain ⟨a, b, d, t, ht, hs⟩ := ih u st c hnd hcu hgu hst hcnt
        exact ⟨a, b, d, t, ht, hs.cons k⟩
      · have hk2 : k ≠ "" ∧ 2 ≤ jsLength k := by
          push_neg at hg
          exact ⟨hg.1, by omega⟩
        have hkc : k ∉ c := fun h => hu (hcu k h)
        have hnd' : (c ++ [k]).Nodup := by
          rw [List.nodup_append]
          refine ⟨hnd, List.nodup_singleton k, ?_⟩
          intro a ha hak
          simp only [List.mem_singleton] at hak
          subst hak
          exact hkc ha
        have hcu' : ∀ x ∈ c ++ [k], x ∈ u ++ [k] := by
          intro x hx
          rcases List.mem_append.mp hx with h | h
          · exact List.mem_append_left _ (hcu x h)
          · exact List.mem_append_right _ h
        have hgu' : ∀ x ∈ c ++ [k], x ≠ "" ∧ 2 ≤ jsLength x := by
          intro x hx
          rcases List.mem_append.mp hx with h | h
          · exact hgu x h
          · simp only [List.mem_singleton] at h
            subst h
            exact hk2
        cases hfs : findStem k with
        | some s =>
          by_cases hss : s ∈ st
          · rw [cleanLoop_conflict rest u st c hg hu hfs hss]
            obtain ⟨a, b, d, t, ht, hsub⟩ := ih u st c hnd hcu hgu hst hcnt
            exact ⟨a, b, d, t, ht, hsub.cons k⟩
          · have hst' : ∀ x ∈ c ++ [k], ∀ s', findStem x = some s' → s' ∈ st ++ [s] := by
              intro x hx s' hx'
              rcases List.mem_append.mp hx with h | h
              · exact List.mem_append_left _ (hst x h s' hx')
              · simp only [List.mem_singleton] at h
                subst h
                rw [hfs] at hx'
                have : s = s' := by simpa using hx'
                subst this
                exact List.mem_append_right _ (by simp)
            have hcnt' : ∀ s', (c ++ [k]).countP (fun x => findStem x == some s') ≤ 1 := by
              intro s'
              rw [List.countP_append]
              by_cases hse : s' = s
              · subst hse
                have hz : c.countP (fun x => findStem x == some s') = 0 := by
                  rw [List.countP_eq_zero]
                  intro x hx hpx
                  have hxs : findStem x = some s' := by simpa using hpx
                  exact hss (hst x hx s' hxs)
                have hone : [k].countP (fun x => findStem x == some s') ≤ 1 :=
                  le_trans (List.countP_le_length _) (by simp)
                omega
              · have hz : [k].countP (fun x => findStem x == some s') = 0 := by
                  rw [List.countP_eq_zero]
                  intro x hx hpx
                  simp only [List.mem_singleton] at hx
                  subst hx
                  have hxs : findStem x = some s' := by simpa using hpx
                  rw [hfs] at hxs
                  exact hse (by simpa using hxs.symm)
                have := hcnt s'
                omega
            rw [cleanLoop_push_stem rest u st c hg hu hfs hss]
            by_cases hlen : 25 ≤ (c ++ [k]).length
            · rw [if_pos hlen]
              exact ⟨hnd', hgu', hcnt', [k], rfl, (List.nil_sublist rest).cons₂ k⟩
            · rw [if_neg hlen]
              obtain ⟨a, b, d, t, ht, hsub⟩ :=
                ih (u ++ [k]) (st ++ [s]) (c ++ [k]) hnd' hcu' hgu' hst' hcnt'
              refine ⟨a, b, d, k :: t, ?_, hsub.cons₂ k⟩
              rw [ht, List.append_assoc]
              rfl
        | none =>
          have hst'' : ∀ x ∈ c ++ [k], ∀ s', findStem x = some s' → s' ∈ st := by
            intro x hx s' hx'
            rcases List.mem_append.mp hx with h | h
            · exact hst x h s' hx'
            · simp only [List.mem_singleton] at h
              subst h
              rw [hfs] at hx'
              exact absurd hx' (by simp)
          have hcnt'' : ∀ s', (c ++ [k]).countP (fun x => findStem x == some s') ≤ 1 := by
            intro s'
            rw [List.countP_append]
            have hz : [k].countP (fun x => findStem x == some s') = 0 := by
              rw [List.countP_eq_zero]
              intro x hx hpx
              simp only [List.mem_singleton] at hx
              subst hx
              have hxs : findStem x = some s' := by simpa using hpx
              rw [hfs] at hxs
              exact absurd hxs (by simp)
            have := hcnt s'
            omega
          rw [cleanLoop_push_none rest u st c hg hu hfs]
          by_cases hlen : 25 ≤ (c ++ [k]).length
          · rw [if_pos hlen]
            exact ⟨hnd', hgu', hcnt'', [k], rfl, (List.nil_sublist rest).cons₂ k⟩
          · rw [if_neg hlen]
            obtain ⟨a, b, d, t, ht, hsub⟩ :=
              ih (u ++ [k]) st (c ++ [k]) hnd' hcu' hgu' hst'' hcnt''
            refine ⟨a, b, d, k :: t, ?_, hsub.cons₂ k⟩
            rw [ht, List.append_assoc]
            rfl

theorem runClean_spec (l : List String) :
    (runClean l).Nodup ∧
    (∀ k ∈ runClean l, k ≠ "" ∧ 2 ≤ jsLength k) ∧
    (∀ s, (runClean l).countP (fun k => findStem k == some s) ≤ 1) ∧
    (runClean l).Sublist l := by
  obtain ⟨h1, h2, h3, t, ht, hsub⟩ :=
    cleanLoop_invariant l [] [] [] (by simp) (by simp) (by simp) (by simp) (by simp)
  have hfull : (cleanLoop l [] [] []).Sublist l := by
    rw [ht]
    simpa using hsub
  refine ⟨List.Nodup.sublist (List.take_sublist 25 _) h1, ?_, ?_, ?_⟩
  · exact fun k hk => h2 k ((List.take_sublist 25 _).subset hk)
  · exact fun s => le_trans ((List.take_sublist 25 _).countP_le _) (h3 s)
  · exact (List.take_sublist 25 _).trans hfull

theorem validateAndCleanKeywords_spec (l : List String) :
    (validateAndCleanKeywords l).Nodup ∧
    (∀ k ∈ validateAndCleanKeywords l, k ≠ "" ∧ 2 ≤ jsLength k) ∧
    (∀ s, (validateAndCleanKeywords l).countP (fun k => findStem k == some s) ≤ 1) ∧
    (validateAndCleanKeywords l).Sublist (l.map normalizeKeyword) :=
  runClean_spec (l.map normalizeKeyword)

theorem validateAndCleanKeywords_mem_normalized (l : List String) (k : String)
    (hk : k ∈ validateAndCleanKeywords l) : normalizeKeyword k = k := by
  have hk' : k ∈ l.map normalizeKeyword :=
    (validateAndCleanKeywords_spec l).2.2.2.subset hk
  obtain ⟨x, _, rfl⟩ := List.mem_map.mp hk'
  exact normalizeKeyword_idem x

theorem validateAndCleanKeywords_length_le (l : List String) :
    (validateAndCleanKeywords l).length ≤ 25 := by
  have : (validateAndCleanKeywords l).length = min 25 (cleanLoop (l.map normalizeKeyword) [] [] []).length :=
    List.length_take 25 _
  omega

/-! ### Second pass over an already-clean list is the identity -/

theorem cleanLoop_id (rest : List String) : ∀ c : List String,
    (c ++ rest).Nodup →
    (∀ k ∈ rest, k ≠ "" ∧ 2 ≤ jsLength k) →
    (∀ s, (c ++ rest).countP (fun k => findStem k == some s) ≤ 1) →
    (c ++ rest).length ≤ 25 →
    cleanLoop rest c (c.filterMap findStem) c = c ++ rest := by
  induction rest with
  | nil =>
    intro c _ _ _ _
    simp [cleanLoop]
  | cons k rest ih =>
    intro c hnd hgu hcnt hlen
    have hk2 := hgu k (by simp)
    have hg : ¬(k = "" ∨ jsLength k < 2) := by
      push_neg
      exact ⟨hk2.1, by omega⟩
    have hkc : k ∉ c := by
      rw [List.nodup_append] at hnd
      exact fun h => hnd.2.2 h (by simp)
    have hassoc : (c ++ [k]) ++ rest = c ++ k :: rest := by
      rw [List.append_assoc]
      rfl
    have hlen2 : (c ++ k :: rest).length = c.length + 1 + rest.length := by
      simp
      omega
    cases hfs : findStem k with
    | some s =>
      have hss : s ∉ c.filterMap findStem := by
        intro hmem
        obtain ⟨x, hx, hxs⟩ := List.mem_filterMap.mp hmem
        have hc1 : 0 < c.countP (fun y => findStem y == some s) :=
          List.countP_pos_iff.mpr ⟨x, hx, by simp [hxs]⟩
        have hc2 : 0 < (k :: rest).countP (fun y => findStem y == some s) :=
          List.countP_pos_iff.mpr ⟨k, by simp, by simp [hfs]⟩
        have := hcnt s
        rw [List.countP_append] at this
        omega
      rw [cleanLoop_push_stem rest c (c.filterMap findStem) c hg hkc hfs hss]
      by_cases hlen' : 25 ≤ (c ++ [k]).length
      · rw [if_pos hlen']
        have hr0 : rest = [] := by
          have h1 : (c ++ [k]).length = c.length + 1 := by simp
          have h2 := hlen
          rw [hlen2] at h2
          rw [h1] at hlen'
          have : rest.length = 0 := by omega
          exact List.length_eq_zero.mp this
        subst hr0
        rfl
      · rw [if_neg hlen']
        have hfm : (c ++ [k]).filterMap findStem = c.filterMap findStem ++ [s] := by
          rw [List.filterMap_append]
          simp [hfs]
        rw [← hfm]
        have hres := ih (c ++ [k]) (by rwa [hassoc]) (fun x hx => hgu x (by simp [hx]))
          (fun s' => by rw [hassoc]; exact hcnt s') (by rwa [hassoc])
        rw [hres, hassoc]
    | none =>
      rw [cleanLoop_push_none rest c (c.filterMap findStem) c hg hkc hfs]
      by_cases hlen' : 25 ≤ (c ++ [k]).length
      · rw [if_pos hlen']
        have hr0 : rest = [] := by
          have h1 : (c ++ [k]).length = c.length + 1 := by simp
          have h2 := hlen
          rw [hlen2] at h2
          rw [h1] at hlen'
          have : rest.length = 0 := by omega
          exact List.length_eq_zero.mp this
        subst hr0
        rfl
      · rw [if_neg hlen']
        have hfm : (c ++ [k]).filterMap findStem = c.filterMap findStem := by
          rw [List.filterMap_append]
          simp [hfs]
        rw [← hfm]
        have hres := ih (c ++ [k]) (by rwa [hassoc]) (fun x hx => hgu x (by simp [hx]))
          (fun s' => by rw [hassoc]; exact hcnt s') (by rwa [hassoc])
        rw [hres, hassoc]

/-! ### Runtime-value entry point on well-typed input, and first-match lookup -/

theorem mapTrimLower_strs (l : List String) :
    mapTrimLower (l.map JSVal.str) = Except.ok (l.map normalizeKeyword) := by
  induction l with
  | nil => rfl
  | cons x xs ih => simp [mapTrimLower, ih, Except.map]

theorem validateAndCleanKeywordsJS_strs (l : List String) :
    validateAndCleanKeywordsJS (JSVal.arr (l.map JSVal.str)) =
      Except.ok (validateAndCleanKeywords l) := by
  simp [validateAndCleanKeywordsJS, mapTrimLower_strs, Except.map, validateAndCleanKeywords]

theorem findStem_first (k s₁ : String) (g₁ : List String)
    (pre post : List (String × List String))
    (hsplit : variations = pre ++ (s₁, g₁) :: post)
    (hk₁ : g₁.contains k = true)
    (hpre : ∀ p ∈ pre, p.2.contains k = false) :
    findStem k = some s₁ := by
  unfold findStem
  rw [hsplit, List.find?_append]
  have h1 : pre.find? (fun p => p.2.contains k) = none :=
    List.find?_eq_none.mpr (fun p hp => by simpa using hpre p hp)
  rw [h1, List.find?_cons_of_pos _ (by simpa using hk₁)]
  rfl

/-! ### Claims -/

/-- C1, counterexample: the claim "for each stem group G in the table, at
most one element of the output of validateAndCleanKeywords normalizes to
a member of G" fails on the code.  "workplace" is listed both in the
"work" group and in the "office" group; on input ["workplace", "office"]
the first-match lookup attributes "workplace" to the "work" group, so
"office" is still emitted, and the output has two elements that are
members of the "office" group. -/
theorem C1_counterexample :
    ("office", ["office", "workspace", "workplace"]) ∈ variations ∧
    validateAndCleanKeywords ["workplace", "office"] = ["workplace", "office"] ∧
    ¬((validateAndCleanKeywords ["workplace", "office"]).countP
        (fun k => ["office", "workspace", "workplace"].contains (normalizeKeyword k)) ≤ 1) := by
  refine ⟨by decide, by decide, by decide⟩

/-- C1, amended: for each stem group in the table, at most one element of
the output of validateAndCleanKeywords is *attributed to* that group by
the first-match lookup, i.e. for every stem name s at most one output
element k has findStem k = some s. -/
theorem C1_at_most_one_per_stem (l : List String) (s : String) :
    (validateAndCleanKeywords l).countP (fun k => findStem k == some s) ≤ 1 :=
  (validateAndCleanKeywords_spec l).2.2.1 s

/-- C2, counterexample: the claim that validateAndCleanKeywords never
fails with an error for any input fails at the runtime-value level: a
list containing a non-string entry (here null) makes
`k.trim()` throw a TypeError inside the `.map` of line 34. -/
theorem C2_counterexample :
    validateAndCleanKeywordsJS (JSVal.arr [JSVal.null]) = Except.error "TypeError" := rfl

/-- C2, amended: validateAndCleanKeywords never fails with an error for
a null-like or non-list input (it returns the empty list), nor for any
list all of whose entries are strings — including empty, whitespace-only
or otherwise malformed string entries; a list with a non-string entry,
however, throws. -/
theorem C2_no_error_on_typed_input (v : JSVal) :
    (isArray v = false → validateAndCleanKeywordsJS v = Except.ok []) ∧
    (∀ l : List String, v = JSVal.arr (l.map JSVal.str) →
      validateAndCleanKeywordsJS v = Except.ok (validateAndCleanKeywords l)) := by
  constructor
  · intro hv
    cases v with
    | arr l => simp [isArray] at hv
    | str s => rfl
    | num n => rfl
    | bool b => rfl
    | null => rfl
    | undef => rfl
  · intro l hl
    rw [hl]
    exact validateAndCleanKeywordsJS_strs l

/-- C2, witness for the amended claim: a number input yields ok [], and a
list of strings (one of them whitespace-only) yields ok of the cleaned
list. -/
theorem C2_no_error_on_typed_input_witness :
    validateAndCleanKeywordsJS (JSVal.num 7) = Except.ok [] ∧
    validateAndCleanKeywordsJS (JSVal.arr [JSVal.str "  ", JSVal.str "sky"]) =
      Except.ok (validateAndCleanKeywords ["  ", "sky"]) :=
  ⟨(C2_no_error_on_typed_input (JSVal.num 7)).1 rfl,
   (C2_no_error_on_typed_input (JSVal.arr [JSVal.str "  ", JSVal.str "sky"])).2
     ["  ", "sky"] rfl⟩

/-- C3: for every input list, the output of validateAndCleanKeywords has
length at most 25 (the loop breaks at 25 and the result is sliced to
25). -/
theorem C3_length_le_25 (l : List String) : (validateAndCleanKeywords l).length ≤ 25 :=
  validateAndCleanKeywords_length_le l

/-- C4: for every input list, no two elements of the output of
validateAndCleanKeywords are equal under case-insensitive comparison
(lower-casing both sides). -/
theorem C4_case_insensitive_distinct (l : List String) :
    (validateAndCleanKeywords l).Pairwise (fun a b => jsToLower a ≠ jsToLower b) := by
  have hnd := (validateAndCleanKeywords_spec l).1
  refine List.Pairwise.imp_of_mem ?_ hnd
  intro a b ha hb hne
  have ha' : jsToLower a = a := by
    rw [← validateAndCleanKeywords_mem_normalized l a ha]
    exact jsToLower_normalizeKeyword _
  have hb' : jsToLower b = b := by
    rw [← validateAndCleanKeywords_mem_normalized l b hb]
    exact jsToLower_normalizeKeyword _
  rw [ha', hb']
  exact hne

/-- C5: for every input list, the output of validateAndCleanKeywords is
a subsequence of the normalized (trimmed, lowercased) input, so the
surviving elements keep the relative order of their first occurrence;
in particular on ["Business", "Nature", "business"] the output is
["business", "nature"]. -/
theorem C5_stable_filter :
    (∀ l : List String,
      (validateAndCleanKeywords l).Sublist (l.map normalizeKeyword)) ∧
    validateAndCleanKeywords ["Business", "Nature", "business"] = ["business", "nature"] :=
  ⟨fun l => (validateAndCleanKeywords_spec l).2.2.2, by decide⟩

/-- C6: every element of the output of validateAndCleanKeywords has
(JavaScript) length at least 2 after trimming and lowercasing; in
particular on ["a", "ok", "go"] the output is ["ok", "go"]. -/
theorem C6_min_length :
    (∀ (l : List String) (k : String), k ∈ validateAndCleanKeywords l → 2 ≤ jsLength k) ∧
    validateAndCleanKeywords ["a", "ok", "go"] = ["ok", "go"] :=
  ⟨fun l k hk => ((validateAndCleanKeywords_spec l).2.1 k hk).2, by decide⟩

/-- C6, witness: the membership hypothesis discharged on the concrete
input ["a", "ok", "go"] and its output element "ok". -/
theorem C6_min_length_witness : 2 ≤ jsLength "ok" :=
  C6_min_length.1 ["a", "ok", "go"] "ok" (by decide)

/-- C7: validateAndCleanKeywords on the empty list returns the empty
list, and on a null-like or non-list runtime value returns the empty
list. -/
theorem C7_empty_and_non_list :
    validateAndCleanKeywordsJS (JSVal.arr []) = Except.ok [] ∧
    validateAndCleanKeywords [] = [] ∧
    ∀ v : JSVal, isArray v = false → validateAndCleanKeywordsJS v = Except.ok [] := by
  refine ⟨rfl, rfl, ?_⟩
  intro v hv
  cases v with
  | arr l => simp [isArray] at hv
  | str s => rfl
  | num n => rfl
  | bool b => rfl
  | null => rfl
  | undef => rfl

/-- C7, witness: the non-list hypothesis discharged at null and at a
boolean. -/
theorem C7_empty_and_non_list_witness :
    validateAndCleanKeywordsJS JSVal.null = Except.ok [] ∧
    validateAndCleanKeywordsJS (JSVal.bool false) = Except.ok [] :=
  ⟨C7_empty_and_non_list.2.2 JSVal.null rfl,
   C7_empty_and_non_list.2.2 (JSVal.bool false) rfl⟩

/-- C8: stem-group lookup is first-match, not best-match.  Whenever the
table splits as pre ++ (s₁, g₁) :: mid ++ (s₂, g₂) :: post with the
normalized candidate k a member of both g₁ and g₂ and of no group in
pre, the lookup attributes k to the earlier group (findStem k = some
s₁); the loop then skips k exactly when s₁ is already claimed, and
emitting k claims only s₁ — the stems of the other groups containing k
are untouched. -/
theorem C8_first_match_lookup (k s₁ s₂ : String) (g₁ g₂ : List String)
    (pre mid post : List (String × List String))
    (hsplit : variations = pre ++ (s₁, g₁) :: mid ++ (s₂, g₂) :: post)
    (hk₁ : g₁.contains k = true) (hk₂ : g₂.contains k = true)
    (hpre : ∀ p ∈ pre, p.2.contains k = false) :
    findStem k = some s₁ ∧
    ∀ (rest u st c : List String), ¬(k = "" ∨ jsLength k < 2) → k ∉ u →
      (s₁ ∈ st → cleanLoop (k :: rest) u st c = cleanLoop rest u st c) ∧
      (s₁ ∉ st → cleanLoop (k :: rest) u st c =
        if 25 ≤ (c ++ [k]).length then c ++ [k]
        else cleanLoop rest (u ++ [k]) (st ++ [s₁]) (c ++ [k])) := by
  have hsplit' : variations = pre ++ (s₁, g₁) :: (mid ++ (s₂, g₂) :: post) := by
    rw [hsplit, List.append_assoc, List.cons_append]
  have hfs : findStem k = some s₁ :=
    findStem_first k s₁ g₁ pre (mid ++ (s₂, g₂) :: post) hsplit' hk₁ hpre
  refine ⟨hfs, fun rest u st c hg hu => ⟨?_, ?_⟩⟩
  · exact fun hin => cleanLoop_conflict rest u st c hg hu hfs hin
  · exact fun hout => cleanLoop_push_stem rest u st c hg hu hfs hout

/-- C8, witness: "workplace" is in both the "work" group (first) and the
"office" group (ninth).  It is attributed to "work"; with "work" already
claimed it is skipped, and with only "office" claimed it is still
emitted and claims "work". -/
theorem C8_first_match_lookup_witness :
    findStem "workplace" = some "work" ∧
    cleanLoop ["workplace"] [] ["work"] ["city"] = ["city"] ∧
    cleanLoop ["workplace"] [] ["office"] [] = ["workplace"] := by
  have h := C8_first_match_lookup "workplace" "work" "office"
    ["work", "working", "worker", "workplace", "workstation"]
    ["office", "workspace", "workplace"]
    []
    [ ("business", ["business", "corporate", "professional", "commercial", "enterprise"]),
      ("happy", ["happy", "joyful", "cheerful", "delighted", "pleased"]),
      ("success", ["success", "successful", "achievement", "accomplishment"]),
      ("team", ["team", "teamwork", "collaboration", "cooperative"]),
      ("technology", ["technology", "technological", "tech", "digital"]),
      ("people", ["people", "person", "individuals", "humans"]),
      ("hand", ["hand", "hands", "finger", "fingers"]) ]
    [ ("meeting", ["meeting", "conference", "discussion"]),
      ("computer", ["computer", "laptop", "desktop", "pc"]),
      ("finance", ["finance", "financial", "money", "economic"]),
      ("data", ["data", "information", "analytics", "statistics"]),
      ("growth", ["growth", "growing", "development", "progress"]),
      ("modern", ["modern", "contemporary", "current", "new"]) ]
    rfl (by decide) (by decide) (by intro p hp; exact absurd hp (List.not_mem_nil p))
  refine ⟨h.1, ?_, ?_⟩
  · rw [(h.2 [] [] ["work"] ["city"] (by decide) (by simp)).1 (by simp)]
    rfl
  · rw [(h.2 [] [] ["office"] [] (by decide) (by simp)).2 (by decide)]
    decide

/-- C9: the effective topTenKeywords field of a metadata result: the
keywords field is first replaced by its sanitized form; then, if the
returned topTenKeywords is present with length exactly 10 it is kept
unchanged, and otherwise it is replaced by the first 10 entries, in
order, of the sanitized keywords list. -/
theorem C9_topTen_fallback (r : MetadataResult) :
    (finalizeResult r).keywords = validateAndCleanKeywords r.keywords ∧
    (∀ t, r.topTenKeywords = some t → t.length = 10 →
      (finalizeResult r).topTenKeywords = some t) ∧
    (∀ t, r.topTenKeywords = some t → t.length ≠ 10 →
      (finalizeResult r).topTenKeywords =
        some ((validateAndCleanKeywords r.keywords).take 10)) ∧
    (r.topTenKeywords = none →
      (finalizeResult r).topTenKeywords =
        some ((validateAndCleanKeywords r.keywords).take 10)) := by
  cases hr : r.topTenKeywords with
  | none =>
    refine ⟨?_, ?_, ?_, ?_⟩ <;> simp [finalizeResult, hr]
  | some t =>
    by_cases hlen : t.length = 10
    · refine ⟨?_, ?_, ?_, ?_⟩ <;> simp [finalizeResult, hr, hlen]
    · refine ⟨?_, ?_, ?_, ?_⟩ <;> simp [finalizeResult, hr, hlen]

/-- C9, witness: a present length-10 top-ten list is kept; a present
length-1 top-ten list is replaced by the first 10 sanitized keywords; an
absent one likewise. -/
theorem C9_topTen_fallback_witness :
    (finalizeResult ⟨"t", "d", ["Sky", "sea"],
        some ["a1", "a2", "a3", "a4", "a5", "a6", "a7", "a8", "a9", "a10"], "alt", "cat"⟩).topTenKeywords
      = some ["a1", "a2", "a3", "a4", "a5", "a6", "a7", "a8", "a9", "a10"] ∧
    (finalizeResult ⟨"t", "d", ["Sky", "sea"], some ["a1"], "alt", "cat"⟩).topTenKeywords
      = some ((validateAndCleanKeywords ["Sky", "sea"]).take 10) ∧
    (finalizeResult ⟨"t", "d", ["Sky", "sea"], none, "alt", "cat"⟩).topTenKeywords
      = some ((validateAndCleanKeywords ["Sky", "sea"]).take 10) :=
  ⟨(C9_topTen_fallback _).2.1 _ rfl (by decide),
   (C9_topTen_fallback _).2.2.1 ["a1"] rfl (by decide),
   (C9_topTen_fallback _).2.2.2 rfl⟩

/-- C10: validateAndCleanKeywords is idempotent — every output element
is already trimmed, lowercased, of length at least 2 and pairwise
distinct, at most one output element is attributed to each stem, and the
output has at most 25 entries, so a second pass changes nothing. -/
theorem C10_idempotent (l : List String) :
    validateAndCleanKeywords (validateAndCleanKeywords l) = validateAndCleanKeywords l := by
  obtain ⟨hnd, hgu, hcnt, _⟩ := validateAndCleanKeywords_spec l
  have hmapid : (validateAndCleanKeywords l).map normalizeKeyword = validateAndCleanKeywords l := by
    have h := List.map_congr_left
      (fun a ha => validateAndCleanKeywords_mem_normalized l a ha)
    rw [h, List.map_id']
  have hid := cleanLoop_id (validateAndCleanKeywords l) [] (by simpa using hnd)
    (fun k hk => hgu k hk) (fun s => by simpa using hcnt s)
    (by simpa using validateAndCleanKeywords_length_le l)
  show runClean ((validateAndCleanKeywords l).map normalizeKeyword) = validateAndCleanKeywords l
  rw [hmapid]
  unfold runClean
  rw [show cleanLoop (validateAndCleanKeywords l) [] [] [] = validateAndCleanKeywords l by
    simpa using hid]
  exact List.take_of_length_le (validateAndCleanKeywords_length_le l)
